import Mathlib

/-!
Verification of `jesture/detection/landmark_detector.py`.

The module wraps an external hand-landmark detection engine
(`mediapipe.solutions.hands.Hands`).  We embed it shallowly:

* `Frame` is an in-memory RGB raster image (rows of RGB pixel triples).
* `NormalizedLandmark` mirrors the protobuf landmark message with its
  `x`, `y`, `z` fields (modelled over `ℚ`).
* The engine is abstract: `HandsEngine` holds an opaque internal state and a
  `step` function that, given the state and a frame, either fails (a raised
  exception in Python) or returns a new internal state together with
  `multi_hand_landmarks` (`none` when no hands are detected, mirroring
  Python's `None`).
* A Python `dict[int, ...]` is an insertion-ordered association list with
  `ℤ` keys: assignment to a present key updates the value in place (keeping
  its position), assignment to a fresh key appends.
-/

/-- An in-memory RGB raster image: rows of (r, g, b) pixels. -/
abbrev Frame : Type := List (List (ℕ × ℕ × ℕ))

/-- One landmark of the engine output, with normalized coordinates. -/
structure NormalizedLandmark where
  x : ℚ
  y : ℚ
  z : ℚ
deriving DecidableEq

/-- The per-hand landmark container (`hand_landmarks.landmark`). -/
abbrev HandLandmarks := List NormalizedLandmark

/-- The abstract detection engine (`mediapipe.solutions.hands.Hands`):
an internal state and a `process` step that may raise (`Except.error`) or
return the updated internal state with `multi_hand_landmarks`. -/
structure HandsEngine (σ ε : Type) where
  state : σ
  step : σ → Frame → Except ε (σ × Option (List HandLandmarks))

/-- The wrapper class: its only attribute is `hand_processor`. -/
structure LandmarkDetector (σ ε : Type) where
  hand_processor : HandsEngine σ ε

/-- `LandmarkDetector.__init__`: forwards the three configuration arguments
to the engine constructor unmodified and stores the resulting engine; any
constructor error propagates. -/
def LandmarkDetector.init (engineCtor : ℤ → ℚ → ℚ → Except ε (HandsEngine σ ε))
    (max_num_hands : ℤ) (min_detection_confidence min_tracking_confidence : ℚ) :
    Except ε (LandmarkDetector σ ε) :=
  (engineCtor max_num_hands min_detection_confidence min_tracking_confidence).map
    (fun e => ⟨e⟩)

/-- A Python `dict[int, α]` as an insertion-ordered association list. -/
abbrev PyDict (α : Type) := List (ℤ × α)

/-- Keys of a dict, in iteration (insertion) order. -/
def keysOf (m : PyDict α) : List ℤ := m.map Prod.fst

/-- Python `d[k] = v`: update in place when `k` is present (its position is
unchanged), append when it is fresh. -/
def dictInsert (m : PyDict α) (k : ℤ) (v : α) : PyDict α :=
  if m.any (fun p => decide (p.1 = k)) then
    m.map (fun p => if p.1 = k then (k, v) else p)
  else
    m ++ [(k, v)]

/-- Python `d.get(k, None)`. -/
def dictGet (m : PyDict α) (k : ℤ) : Option α :=
  (m.find? (fun p => decide (p.1 = k))).map Prod.snd

/-- A sequence of `d[k] = v` assignments. -/
def dictInsertAll (m : PyDict α) (ps : PyDict α) : PyDict α :=
  ps.foldl (fun acc p => dictInsert acc p.1 p.2) m

/-- Python `enumerate`, indices as Python ints. -/
def pyEnumerate (i : ℤ) : List α → List (ℤ × α)
  | [] => []
  | a :: as => (i, a) :: pyEnumerate (i + 1) as

/-- The landmark map type returned by `fetch_landmarks`. -/
abbrev LandmarkMap := PyDict (ℚ × ℚ)

/-- The body of `fetch_landmarks` after the `process` call: return `{}` when
`multi_hand_landmarks` is falsy (`None` or empty), else run the two nested
`for` loops assigning `landmark_map[landmark_id] = (landmark.x, landmark.y)`. -/
def flattenLandmarks (multi_hand_landmarks : Option (List HandLandmarks)) :
    LandmarkMap :=
  match multi_hand_landmarks with
  | none => []
  | some hands =>
    if hands.isEmpty then []
    else
      hands.foldl
        (fun landmark_map hand_landmarks =>
          (pyEnumerate 0 hand_landmarks).foldl
            (fun m p => dictInsert m p.1 (p.2.x, p.2.y)) landmark_map)
        []

/-- `LandmarkDetector.fetch_landmarks`: run the engine on the frame (updating
only the engine's internal state), propagate engine errors, and flatten the
result. -/
def LandmarkDetector.fetch_landmarks (d : LandmarkDetector σ ε)
    (rgb_frame : Frame) :
    Except ε (LandmarkDetector σ ε × LandmarkMap) :=
  match d.hand_processor.step d.hand_processor.state rgb_frame with
  | .error e => .error e
  | .ok (s, multi_hand_landmarks) =>
    .ok (⟨⟨s, d.hand_processor.step⟩⟩, flattenLandmarks multi_hand_landmarks)

/-- `LandmarkDetector.fetch_landmark_position`: call `fetch_landmarks` on the
frame and `.get(landmark_id, None)` on the result. -/
def LandmarkDetector.fetch_landmark_position (d : LandmarkDetector σ ε)
    (rgb_frame : Frame) (landmark_id : ℤ) :
    Except ε (LandmarkDetector σ ε × Option (ℚ × ℚ)) :=
  match d.fetch_landmarks rgb_frame with
  | .error e => .error e
  | .ok (d', landmark_position_map) =>
    .ok (d', dictGet landmark_position_map landmark_id)

/-- The landmark stored at (integer) index `j` of a hand's landmark list,
when `j` is a valid index. -/
def landmarkAt (h : HandLandmarks) (j : ℤ) : Option NormalizedLandmark :=
  if 0 ≤ j then h[j.toNat]? else none

/-- The last-enumerated hand whose landmark list has an entry at index `j`. -/
def lastHandWith (hands : List HandLandmarks) (j : ℤ) :
    Option HandLandmarks :=
  hands.reverse.find? (fun h => decide (0 ≤ j ∧ j < (h.length : ℤ)))

/-- The maximum landmark-list length over all detected hands. -/
def maxHandLen (hands : List HandLandmarks) : ℕ :=
  hands.foldr (fun h acc => max h.length acc) 0

/-- The subsequence of first occurrences of a list: the order in which
fresh keys were introduced. -/
def firstOccur : List ℤ → List ℤ
  | [] => []
  | k :: ks => k :: firstOccur (ks.filter (fun j => decide (j ≠ k)))
termination_by l => l.length
decreasing_by
  simp only [List.length_cons]
  exact Nat.lt_succ_of_le (List.length_filter_le _ _)

/-- The inner `for landmark_id, landmark in enumerate(...)` loop of
`fetch_landmarks`, processing one hand into the accumulated map. -/
def handInsert (landmark_map : LandmarkMap) (hand_landmarks : HandLandmarks) :
    LandmarkMap :=
  (pyEnumerate 0 hand_landmarks).foldl
    (fun m p => dictInsert m p.1 (p.2.x, p.2.y)) landmark_map

/-- The entries a single hand contributes, in enumeration order. -/
def handEntries (h : HandLandmarks) : LandmarkMap :=
  (pyEnumerate 0 h).map (fun p => (p.1, (p.2.x, p.2.y)))

/-! ### Concrete data used to exercise the development -/

/-- A small concrete frame. -/
def frameEx : Frame := [[(0, 0, 0), (255, 255, 255)]]

/-- A second, different concrete frame. -/
def frameEx2 : Frame := []

/-- A concrete single hand with two normalized landmarks. -/
def handW : HandLandmarks := [⟨0, 1, 0⟩, ⟨1, 0, 2⟩]

/-- Two concrete detected hands: the first has two landmarks, the second
has one, so landmark ID 0 appears in both. -/
def handsEx : List HandLandmarks :=
  [[⟨0, 0, 0⟩, ⟨1, 1, 0⟩], [⟨1, 0, 0⟩]]

/-- An engine that deterministically detects `handsEx` on every frame. -/
def engineEx : HandsEngine Unit Unit :=
  ⟨(), fun s _ => .ok (s, some handsEx)⟩

/-- The wrapper around `engineEx`. -/
def detectorEx : LandmarkDetector Unit Unit := ⟨engineEx⟩

/-- An engine that never detects a hand (`multi_hand_landmarks` is `None`). -/
def engineNone : HandsEngine Unit Unit :=
  ⟨(), fun s _ => .ok (s, none)⟩

/-- The wrapper around `engineNone`. -/
def detectorNone : LandmarkDetector Unit Unit := ⟨engineNone⟩

/-- An engine whose `process` always raises. -/
def engineErr : HandsEngine Unit Unit :=
  ⟨(), fun _ _ => .error ()⟩

/-- The wrapper around `engineErr`. -/
def detectorErr : LandmarkDetector Unit Unit := ⟨engineErr⟩

/-- An engine constructor that accepts any configuration and returns
`engineEx`. -/
def ctorEx : ℤ → ℚ → ℚ → Except Unit (HandsEngine Unit Unit) :=
  fun _ _ _ => .ok engineEx

/-- An engine constructor that rejects every configuration. -/
def ctorErr : ℤ → ℚ → ℚ → Except Unit (HandsEngine Unit Unit) :=
  fun _ _ _ => .error ()

/-! ### Basic dictionary lemmas -/

theorem keysOf_nil : keysOf ([] : PyDict α) = [] := rfl

theorem keysOf_append (m m' : PyDict α) :
    keysOf (m ++ m') = keysOf m ++ keysOf m' := List.map_append _ _ _

theorem mem_keysOf {m : PyDict α} {k : ℤ} :
    k ∈ keysOf m ↔ ∃ p ∈ m, p.1 = k := by
  simp [keysOf, List.mem_map]

theorem keysOf_dictInsert (m : PyDict α) (k : ℤ) (v : α) :
    keysOf (dictInsert m k v) =
      if k ∈ keysOf m then keysOf m else keysOf m ++ [k] := by
  unfold dictInsert
  have hany : (m.any (fun p => decide (p.1 = k)) = true) ↔ k ∈ keysOf m := by
    simp [List.any_eq_true, mem_keysOf]
  by_cases h : k ∈ keysOf m
  · rw [if_pos (hany.mpr h), if_pos h]
    unfold keysOf
    rw [List.map_map]
    apply List.map_congr_left
    intro p _
    by_cases hp : p.1 = k <;> simp [hp]
  · rw [if_neg (fun hc => h (hany.mp hc)), if_neg h, keysOf_append]
    rfl

theorem dictGet_nil (k : ℤ) : dictGet ([] : PyDict α) k = none := rfl

theorem find?_overwrite_hit (m : PyDict α) (k : ℤ) (v : α)
    (hany : m.any (fun p => decide (p.1 = k)) = true) :
    (m.map (fun p => if p.1 = k then (k, v) else p)).find?
      (fun p => decide (p.1 = k)) = some (k, v) := by
  induction m with
  | nil => simp at hany
  | cons q m ih =>
    by_cases hq : q.1 = k
    · simp only [List.map_cons, if_pos hq]
      exact List.find?_cons_of_pos _ (by simp)
    · simp only [List.map_cons, if_neg hq]
      rw [List.find?_cons_of_neg _ (by simpa using hq)]
      apply ih
      simpa [hq] using hany

theorem find?_overwrite_miss (m : PyDict α) (k j : ℤ) (v : α)
    (hj : j ≠ k) :
    (m.map (fun p => if p.1 = k then (k, v) else p)).find?
      (fun p => decide (p.1 = j)) = m.find? (fun p => decide (p.1 = j)) := by
  induction m with
  | nil => rfl
  | cons q m ih =>
    by_cases hq : q.1 = k
    · have hqj : ¬ q.1 = j := by rw [hq]; exact fun hc => hj hc.symm
      simp only [List.map_cons, if_pos hq]
      rw [List.find?_cons_of_neg _ (by simp; exact fun hc => hj hc.symm),
        List.find?_cons_of_neg _ (by simpa using hqj)]
      exact ih
    · simp only [List.map_cons, if_neg hq]
      by_cases hqj : q.1 = j
      · rw [List.find?_cons_of_pos _ (by simpa using hqj),
          List.find?_cons_of_pos _ (by simpa using hqj)]
      · rw [List.find?_cons_of_neg _ (by simpa using hqj),
          List.find?_cons_of_neg _ (by simpa using hqj)]
        exact ih

theorem dictGet_dictInsert (m : PyDict α) (k j : ℤ) (v : α) :
    dictGet (dictInsert m k v) j = if j = k then some v else dictGet m j := by
  unfold dictInsert dictGet
  by_cases hany : m.any (fun p => decide (p.1 = k)) = true
  · rw [if_pos hany]
    by_cases hj : j = k
    · subst hj
      rw [if_pos rfl, find?_overwrite_hit m j v hany]
      rfl
    · rw [if_neg hj, find?_overwrite_miss m k j v hj]
  · rw [if_neg hany, List.find?_append]
    cases hfind : m.find? (fun p => decide (p.1 = j)) with
    | some p =>
      have hpj : p.1 = j := by simpa using List.find?_some hfind
      have hmem := List.mem_of_find?_eq_some hfind
      have hjk : ¬ j = k := fun hc =>
        hany (List.any_eq_true.mpr ⟨p, hmem, by simp [hpj, hc]⟩)
      rw [if_neg hjk]
      rfl
    | none =>
      by_cases hj : j = k
      · subst hj
        rw [if_pos rfl]
        simp [List.find?_cons]
      · have hpred : ((fun p : ℤ × α => decide (p.1 = j)) (k, v)) = false := by
          simp
          exact fun hc => hj hc.symm
        rw [if_neg hj]
        simp [List.find?_cons, hpred]

theorem nodup_keysOf_dictInsert {m : PyDict α} (k : ℤ) (v : α)
    (h : (keysOf m).Nodup) : (keysOf (dictInsert m k v)).Nodup := by
  rw [keysOf_dictInsert]
  by_cases hk : k ∈ keysOf m
  · rwa [if_pos hk]
  · rw [if_neg hk]
    simpa [List.nodup_append] using ⟨h, hk⟩

/-! ### Folded assignment sequences -/

theorem dictInsertAll_cons (m : PyDict α) (p : ℤ × α) (ps : PyDict α) :
    dictInsertAll m (p :: ps) = dictInsertAll (dictInsert m p.1 p.2) ps := rfl

theorem dictGet_dictInsertAll (ps m : PyDict α) (j : ℤ) :
    dictGet (dictInsertAll m ps) j =
      ((ps.reverse.find? (fun p => decide (p.1 = j))).map Prod.snd).or
        (dictGet m j) := by
  induction ps generalizing m with
  | nil => simp [dictInsertAll]
  | cons p ps ih =>
    rw [dictInsertAll_cons, ih, List.reverse_cons, List.find?_append]
    cases hf : ps.reverse.find? (fun q => decide (q.1 = j)) with
    | some q => simp
    | none =>
      rw [Option.none_or, dictGet_dictInsert]
      by_cases hj : j = p.1
      · subst hj
        simp [List.find?_cons]
      · simp [List.find?_cons, hj, Ne.symm hj]

theorem keysOf_dictInsertAll (ps m : PyDict α) :
    keysOf (dictInsertAll m ps) =
      keysOf m ++
        firstOccur ((ps.map Prod.fst).filter
          (fun k => decide (k ∉ keysOf m))) := by
  induction ps generalizing m with
  | nil => simp [dictInsertAll, firstOccur]
  | cons p ps ih =>
    rw [dictInsertAll_cons, ih, keysOf_dictInsert, List.map_cons]
    by_cases hp : p.1 ∈ keysOf m
    · rw [if_pos hp, List.filter_cons_of_neg (by simp [hp])]
    · rw [if_neg hp, List.filter_cons_of_pos (by simp [hp])]
      rw [firstOccur, List.append_assoc, List.cons_append, List.nil_append]
      congr 2
      rw [List.filter_filter]
      congr 1
      apply List.filter_congr
      intro a _
      by_cases h1 : a ∈ keysOf m <;> by_cases h2 : a = p.1 <;>
        simp [List.mem_append, h1, h2]

theorem nodup_keysOf_dictInsertAll (ps m : PyDict α)
    (h : (keysOf m).Nodup) : (keysOf (dictInsertAll m ps)).Nodup := by
  induction ps generalizing m with
  | nil => exact h
  | cons p ps ih => exact ih _ (nodup_keysOf_dictInsert _ _ h)

/-! ### Enumeration lemmas -/

theorem length_pyEnumerate (l : List α) (i : ℤ) :
    (pyEnumerate i l).length = l.length := by
  induction l generalizing i with
  | nil => rfl
  | cons a as ih => simp [pyEnumerate, ih]

theorem pyEnumerate_map_fst (l : List α) (i : ℤ) :
    (pyEnumerate i l).map Prod.fst =
      (List.range l.length).map (fun n : ℕ => i + (n : ℤ)) := by
  induction l generalizing i with
  | nil => rfl
  | cons a as ih =>
    rw [pyEnumerate, List.map_cons, ih, List.length_cons,
      List.range_succ_eq_map, List.map_cons, List.map_map]
    congr 1
    · simp
    · apply List.map_congr_left
      intro n _
      simp only [Function.comp_apply, Nat.succ_eq_add_one]
      push_cast
      ring

theorem snd_mem_pyEnumerate {l : List α} {i : ℤ} {p : ℤ × α}
    (h : p ∈ pyEnumerate i l) : p.2 ∈ l := by
  induction l generalizing i with
  | nil => cases h
  | cons a as ih =>
    rcases List.mem_cons.mp h with hp | hp
    · subst hp; exact List.mem_cons_self _ _
    · exact List.mem_cons_of_mem _ (ih hp)

/-! ### The flattening loop of `fetch_landmarks` -/

theorem flattenLandmarks_some (hands : List HandLandmarks) :
    flattenLandmarks (some hands) =
      if hands.isEmpty then [] else hands.foldl handInsert [] := rfl

theorem handInsert_eq_dictInsertAll (m : LandmarkMap) (h : HandLandmarks) :
    handInsert m h =
      dictInsertAll m
        ((pyEnumerate 0 h).map (fun p => (p.1, (p.2.x, p.2.y)))) := by
  rw [dictInsertAll, List.foldl_map]
  rfl

theorem dictGet_handInsert_aux (h : HandLandmarks) (i : ℤ) (m : LandmarkMap)
    (j : ℤ) :
    dictGet ((pyEnumerate i h).foldl
        (fun m' p => dictInsert m' p.1 (p.2.x, p.2.y)) m) j =
      ((if i ≤ j then h[(j - i).toNat]? else none).map
        (fun l => (l.x, l.y))).or (dictGet m j) := by
  induction h generalizing i m with
  | nil =>
    rw [pyEnumerate]
    cases hij : decide (i ≤ j) <;> simp_all
  | cons l ls ih =>
    rw [pyEnumerate, List.foldl_cons, ih]
    by_cases hji : j = i
    · subst hji
      have h1 : ¬ (j + 1 ≤ j) := by omega
      have h2 : (j - j).toNat = 0 := by omega
      simp [h1, h2, dictGet_dictInsert]
    · by_cases hij : i ≤ j
      · have h1 : i + 1 ≤ j := by omega
        have h2 : (j - i).toNat = (j - (i + 1)).toNat + 1 := by omega
        rw [if_pos h1, if_pos hij, h2, List.getElem?_cons_succ,
          dictGet_dictInsert, if_neg hji]
      · have h1 : ¬ (i + 1 ≤ j) := by omega
        rw [if_neg h1, if_neg hij, dictGet_dictInsert, if_neg hji]

theorem dictGet_handInsert (m : LandmarkMap) (h : HandLandmarks) (j : ℤ) :
    dictGet (handInsert m h) j =
      ((landmarkAt h j).map (fun l => (l.x, l.y))).or (dictGet m j) := by
  rw [handInsert, dictGet_handInsert_aux, landmarkAt]
  have : (j - 0).toNat = j.toNat := by omega
  rw [this]

theorem dictGet_foldl_handInsert (hands : List HandLandmarks)
    (m : LandmarkMap) (j : ℤ) :
    dictGet (hands.foldl handInsert m) j =
      ((lastHandWith hands j).bind
        (fun h => (landmarkAt h j).map (fun l => (l.x, l.y)))).or
        (dictGet m j) := by
  induction hands generalizing m with
  | nil => simp [lastHandWith]
  | cons h hs ih =>
    rw [List.foldl_cons, ih]
    unfold lastHandWith
    rw [List.reverse_cons, List.find?_append]
    cases hf : hs.reverse.find?
        (fun h' => decide (0 ≤ j ∧ j < (h'.length : ℤ))) with
    | some h' =>
      have hpred : 0 ≤ j ∧ j < (h'.length : ℤ) := by
        simpa using List.find?_some hf
      have hlt : j.toNat < h'.length := by omega
      rw [Option.or_some]
      simp only [Option.some_bind]
      rw [landmarkAt, if_pos hpred.1, List.getElem?_eq_getElem hlt]
      rfl
    | none =>
      rw [Option.none_or, dictGet_handInsert]
      by_cases hpred : 0 ≤ j ∧ j < (h.length : ℤ)
      · rw [List.find?_cons_of_pos _ (by simpa using hpred)]
        rfl
      · rw [List.find?_cons_of_neg _ (by simpa using hpred)]
        have : landmarkAt h j = none := by
          rw [landmarkAt]
          by_cases h0 : 0 ≤ j
          · rw [if_pos h0]
            exact List.getElem?_eq_none (by omega)
          · rw [if_neg h0]
        rw [this]
        rfl

theorem dictGet_flattenLandmarks (hands : List HandLandmarks) (j : ℤ) :
    dictGet (flattenLandmarks (some hands)) j =
      (lastHandWith hands j).bind
        (fun h => (landmarkAt h j).map (fun l => (l.x, l.y))) := by
  rw [flattenLandmarks_some]
  by_cases he : hands.isEmpty
  · rw [if_pos he]
    rw [List.isEmpty_iff] at he
    subst he
    simp [lastHandWith, dictGet_nil]
  · rw [if_neg he, dictGet_foldl_handInsert, dictGet_nil, Option.or_none]

theorem nodup_keysOf_foldl_handInsert (hands : List HandLandmarks)
    (m : LandmarkMap) (h : (keysOf m).Nodup) :
    (keysOf (hands.foldl handInsert m)).Nodup := by
  induction hands generalizing m with
  | nil => exact h
  | cons hd hs ih =>
    rw [List.foldl_cons]
    exact ih _ (by rw [handInsert_eq_dictInsertAll]
                   exact nodup_keysOf_dictInsertAll _ _ h)

theorem nodup_keysOf_flattenLandmarks (multi : Option (List HandLandmarks)) :
    (keysOf (flattenLandmarks multi)).Nodup := by
  cases multi with
  | none => exact List.nodup_nil
  | some hands =>
    rw [flattenLandmarks_some]
    by_cases he : hands.isEmpty
    · rw [if_pos he]; exact List.nodup_nil
    · rw [if_neg he]
      exact nodup_keysOf_foldl_handInsert hands [] List.nodup_nil

/-! ### Key-set lemmas -/

theorem dictInsertAll_append (m ps qs : PyDict α) :
    dictInsertAll m (ps ++ qs) = dictInsertAll (dictInsertAll m ps) qs :=
  List.foldl_append _ _ _ _

theorem foldl_handInsert_eq_dictInsertAll (hands : List HandLandmarks)
    (m : LandmarkMap) :
    hands.foldl handInsert m = dictInsertAll m (hands.flatMap handEntries) := by
  induction hands generalizing m with
  | nil => rfl
  | cons h hs ih =>
    rw [List.foldl_cons, ih, List.flatMap_cons, dictInsertAll_append,
      handInsert_eq_dictInsertAll]
    rfl

theorem dictGet_isSome_iff_mem_keysOf (m : PyDict α) (j : ℤ) :
    (dictGet m j).isSome ↔ j ∈ keysOf m := by
  rw [dictGet, Option.isSome_map', List.find?_isSome, mem_keysOf]
  constructor
  · rintro ⟨p, hp, hpj⟩
    exact ⟨p, hp, by simpa using hpj⟩
  · rintro ⟨p, hp, hpj⟩
    exact ⟨p, hp, by simpa using hpj⟩

theorem lastHandWith_isSome_iff (hands : List HandLandmarks) (j : ℤ) :
    (lastHandWith hands j).isSome ↔
      ∃ h ∈ hands, 0 ≤ j ∧ j < (h.length : ℤ) := by
  rw [lastHandWith, List.find?_isSome]
  constructor
  · rintro ⟨h, hh, hp⟩
    exact ⟨h, List.mem_reverse.mp hh, by simpa using hp⟩
  · rintro ⟨h, hh, hp⟩
    exact ⟨h, List.mem_reverse.mpr hh, by simpa using hp⟩

theorem lt_maxHandLen_iff (hands : List HandLandmarks) (n : ℕ) :
    n < maxHandLen hands ↔ ∃ h ∈ hands, n < h.length := by
  induction hands with
  | nil => simp [maxHandLen]
  | cons h hs ih =>
    have hmax : maxHandLen (h :: hs) = max h.length (maxHandLen hs) := rfl
    rw [hmax, lt_max_iff, ih, List.exists_mem_cons_iff]

theorem mem_keysOf_flattenLandmarks (hands : List HandLandmarks) (j : ℤ) :
    j ∈ keysOf (flattenLandmarks (some hands)) ↔
      ∃ h ∈ hands, 0 ≤ j ∧ j < (h.length : ℤ) := by
  rw [← dictGet_isSome_iff_mem_keysOf, dictGet_flattenLandmarks]
  cases hl : lastHandWith hands j with
  | none =>
    have hno : ¬ ∃ h ∈ hands, 0 ≤ j ∧ j < (h.length : ℤ) := by
      rw [← lastHandWith_isSome_iff, hl]
      simp
    simp [hno]
  | some h =>
    have hpred : 0 ≤ j ∧ j < (h.length : ℤ) := by
      simpa using List.find?_some hl
    have hmem : h ∈ hands := List.mem_reverse.mp (List.mem_of_find?_eq_some hl)
    have hlt : j.toNat < h.length := by omega
    simp only [Option.some_bind]
    rw [landmarkAt, if_pos hpred.1, List.getElem?_eq_getElem hlt]
    simp only [Option.map_some', Option.isSome_some, true_iff]
    exact ⟨h, hmem, hpred⟩

theorem length_keysOf (m : PyDict α) : (keysOf m).length = m.length :=
  List.length_map _ _

theorem length_flattenLandmarks (hands : List HandLandmarks) :
    (flattenLandmarks (some hands)).length = maxHandLen hands := by
  have hnd := nodup_keysOf_flattenLandmarks (some hands)
  have hndR : ((List.range (maxHandLen hands)).map
      (fun n : ℕ => (n : ℤ))).Nodup :=
    (List.nodup_range _).map (fun a b h => by omega)
  have memR : ∀ a : ℤ,
      a ∈ (List.range (maxHandLen hands)).map (fun n : ℕ => (n : ℤ)) ↔
        0 ≤ a ∧ a.toNat < maxHandLen hands := by
    intro a
    simp only [List.mem_map, List.mem_range]
    constructor
    · rintro ⟨n, hn, rfl⟩; omega
    · rintro ⟨h0, hM⟩; exact ⟨a.toNat, hM, by omega⟩
  have memK : ∀ a : ℤ, a ∈ keysOf (flattenLandmarks (some hands)) ↔
      0 ≤ a ∧ a.toNat < maxHandLen hands := by
    intro a
    rw [mem_keysOf_flattenLandmarks]
    constructor
    · rintro ⟨h, hh, h0, hlt⟩
      exact ⟨h0, (lt_maxHandLen_iff _ _).mpr ⟨h, hh, by omega⟩⟩
    · rintro ⟨h0, hM⟩
      obtain ⟨h, hh, hlt⟩ := (lt_maxHandLen_iff _ _).mp hM
      exact ⟨h, hh, h0, by omega⟩
  have hperm : List.Perm (keysOf (flattenLandmarks (some hands)))
      ((List.range (maxHandLen hands)).map (fun n : ℕ => (n : ℤ))) := by
    rw [List.perm_iff_count]
    intro a
    by_cases ha : a ∈ keysOf (flattenLandmarks (some hands))
    · rw [List.count_eq_one_of_mem hnd ha,
        List.count_eq_one_of_mem hndR ((memR a).mpr ((memK a).mp ha))]
    · rw [List.count_eq_zero_of_not_mem ha,
        List.count_eq_zero_of_not_mem (fun hc => ha ((memK a).mpr ((memR a).mp hc)))]
  have := hperm.length_eq
  rw [length_keysOf] at this
  rw [this, List.length_map, List.length_range]

/-! ### Iteration order of the returned map -/

theorem keysOf_flattenLandmarks (hands : List HandLandmarks) :
    keysOf (flattenLandmarks (some hands)) =
      firstOccur (hands.flatMap (fun h => (pyEnumerate 0 h).map Prod.fst)) := by
  rw [flattenLandmarks_some]
  by_cases he : hands.isEmpty
  · rw [if_pos he]
    rw [List.isEmpty_iff] at he
    subst he
    simp [firstOccur, keysOf]
  · rw [if_neg he, foldl_handInsert_eq_dictInsertAll, keysOf_dictInsertAll,
      keysOf_nil, List.nil_append]
    congr 1
    have hfil : ∀ l : List ℤ,
        l.filter (fun k => decide (k ∉ ([] : List ℤ))) = l := by
      intro l
      apply List.filter_eq_self.mpr
      intro a _
      simp
    rw [hfil, List.map_flatMap]
    have hpe : (fun h : HandLandmarks => (handEntries h).map Prod.fst) =
        (fun h : HandLandmarks => (pyEnumerate 0 h).map Prod.fst) := by
      funext h
      rw [handEntries, List.map_map]
      rfl
    rw [hpe]

/-! ### The single-hand case -/

theorem dictInsert_fresh (m : PyDict α) (k : ℤ) (v : α)
    (h : k ∉ keysOf m) : dictInsert m k v = m ++ [(k, v)] := by
  rw [dictInsert, if_neg]
  intro hc
  obtain ⟨p, hp, hpk⟩ := List.any_eq_true.mp hc
  exact h (mem_keysOf.mpr ⟨p, hp, by simpa using hpk⟩)

theorem dictInsertAll_fresh (ps m : PyDict α)
    (hnd : (ps.map Prod.fst).Nodup)
    (hdis : ∀ k ∈ ps.map Prod.fst, k ∉ keysOf m) :
    dictInsertAll m ps = m ++ ps := by
  induction ps generalizing m with
  | nil => rw [List.append_nil]; rfl
  | cons p ps ih =>
    have hnd' : p.1 ∉ ps.map Prod.fst ∧ (ps.map Prod.fst).Nodup :=
      List.nodup_cons.mp hnd
    rw [dictInsertAll_cons,
      dictInsert_fresh m p.1 p.2 (hdis p.1 (by simp)), ih]
    · rw [List.append_assoc, List.singleton_append]
    · exact hnd'.2
    · intro k hk
      rw [keysOf_append]
      intro hc
      rcases List.mem_append.mp hc with hc | hc
      · exact hdis k (by simp [hk]) hc
      · have hkp : k = p.1 := by simpa [keysOf] using hc
        exact hnd'.1 (hkp ▸ hk)

theorem handEntries_map_fst (h : HandLandmarks) :
    (handEntries h).map Prod.fst =
      (List.range h.length).map (fun n : ℕ => (n : ℤ)) := by
  rw [handEntries, List.map_map]
  have : (Prod.fst ∘ fun p : ℤ × NormalizedLandmark => (p.1, (p.2.x, p.2.y)))
      = Prod.fst := rfl
  rw [this, pyEnumerate_map_fst]
  apply List.map_congr_left
  intro n _
  omega

theorem nodup_handEntries_map_fst (h : HandLandmarks) :
    ((handEntries h).map Prod.fst).Nodup := by
  rw [handEntries_map_fst]
  exact (List.nodup_range _).map (fun a b hab => by omega)

theorem flattenLandmarks_single (h : HandLandmarks) :
    flattenLandmarks (some [h]) = handEntries h := by
  rw [flattenLandmarks_some, if_neg (by simp), List.foldl_cons, List.foldl_nil,
    handInsert_eq_dictInsertAll]
  have := dictInsertAll_fresh (handEntries h) []
    (nodup_handEntries_map_fst h) (by intro k _; simp [keysOf])
  rw [handEntries] at this ⊢
  rw [this, List.nil_append]

theorem length_handEntries (h : HandLandmarks) :
    (handEntries h).length = h.length := by
  rw [handEntries, List.length_map, length_pyEnumerate]

theorem mem_handEntries {h : HandLandmarks} {p : ℤ × (ℚ × ℚ)}
    (hp : p ∈ handEntries h) : ∃ l ∈ h, p.2 = (l.x, l.y) := by
  rw [handEntries] at hp
  obtain ⟨q, hq, hqp⟩ := List.mem_map.mp hp
  exact ⟨q.2, snd_mem_pyEnumerate hq, by rw [← hqp]⟩


theorem dictGet_eq_some_mem {m : PyDict α} {j : ℤ} {v : α}
    (h : dictGet m j = some v) : (j, v) ∈ m := by
  rw [dictGet] at h
  obtain ⟨p, hfind, hpv⟩ := Option.map_eq_some'.mp h
  have hpj : p.1 = j := by simpa using List.find?_some hfind
  have hpm := List.mem_of_find?_eq_some hfind
  have : p = (j, v) := Prod.ext hpj hpv
  exact this ▸ hpm

/-! ### The claims -/

/-- C2: for every detector, frame and integer landmark id,
`fetch_landmark_position` returns exactly `fetch_landmarks(frame).get(id)`:
the stored pair when the id is a key of the map, and an explicit `none`
(not an error) when it is not. -/
theorem fetch_landmark_position_eq_get (d : LandmarkDetector σ ε) (f : Frame)
    (id : ℤ) :
    d.fetch_landmark_position f id =
      (d.fetch_landmarks f).map (fun p => (p.1, dictGet p.2 id)) ∧
    (∀ d' m, d.fetch_landmarks f = .ok (d', m) →
      (id ∈ keysOf m → ∃ v, dictGet m id = some v ∧ (id, v) ∈ m) ∧
      (id ∉ keysOf m → dictGet m id = none)) := by
  constructor
  · rw [LandmarkDetector.fetch_landmark_position]
    cases hf : d.fetch_landmarks f with
    | error e => rfl
    | ok p => rfl
  · intro d' m _
    constructor
    · intro hmem
      obtain ⟨v, hv⟩ :=
        Option.isSome_iff_exists.mp ((dictGet_isSome_iff_mem_keysOf m id).mpr hmem)
      exact ⟨v, hv, dictGet_eq_some_mem hv⟩
    · intro hmem
      rw [← Option.not_isSome_iff_eq_none]
      rw [Option.isSome_iff_exists]
      rintro ⟨v, hv⟩
      exact hmem ((dictGet_isSome_iff_mem_keysOf m id).mp (by rw [hv]; rfl))

/-- C4: whenever the engine detects zero hands — its `multi_hand_landmarks`
is `None` or the empty list — `fetch_landmarks` returns the empty mapping
(only the engine's internal state advances). -/
theorem fetch_landmarks_no_hands (d : LandmarkDetector σ ε) (f : Frame)
    (s : σ) (r : Option (List HandLandmarks))
    (hstep : d.hand_processor.step d.hand_processor.state f = .ok (s, r))
    (hr : r = none ∨ r = some []) :
    d.fetch_landmarks f = .ok (⟨⟨s, d.hand_processor.step⟩⟩, []) := by
  rw [LandmarkDetector.fetch_landmarks, hstep]
  rcases hr with rfl | rfl <;> rfl

/-- C6: the iteration (insertion) order of the returned map is the order of
first insertion: per-hand landmark enumeration order, then hand enumeration
order, with overwrites by later hands leaving an existing ID's position
unchanged. -/
theorem fetch_landmarks_iteration_order (hands : List HandLandmarks) :
    keysOf (flattenLandmarks (some hands)) =
      firstOccur (hands.flatMap (fun h => (pyEnumerate 0 h).map Prod.fst)) :=
  keysOf_flattenLandmarks hands

/-- C10: the value stored for a landmark ID is the raw `(x, y)` of the
corresponding engine landmark of the last hand containing that ID — copied
verbatim, with no clamping or rounding, and with the `z` field discarded. -/
theorem fetch_landmarks_copies_raw_xy (hands : List HandLandmarks) (j : ℤ) :
    dictGet (flattenLandmarks (some hands)) j =
      (lastHandWith hands j).bind
        (fun h => (landmarkAt h j).map (fun l => (l.x, l.y))) :=
  dictGet_flattenLandmarks hands j

/-- C1: on a frame with two or more detected hands, a landmark ID appearing
in more than one hand's landmark list is present exactly once as a key of
the returned map, and its value is the `(x, y)` pair of that ID's landmark
in the later-enumerated hand (last hand wins on ID collision). -/
theorem fetch_landmarks_collision (hands : List HandLandmarks) (j : ℤ)
    (h2 : 2 ≤ hands.length)
    (hmulti : 2 ≤ (hands.filter
      (fun h => decide (0 ≤ j ∧ j < (h.length : ℤ)))).length) :
    (keysOf (flattenLandmarks (some hands))).count j = 1 ∧
    ∃ h, lastHandWith hands j = some h ∧
      dictGet (flattenLandmarks (some hands)) j =
        (landmarkAt h j).map (fun l => (l.x, l.y)) := by
  have hfilne : hands.filter
      (fun h => decide (0 ≤ j ∧ j < (h.length : ℤ))) ≠ [] := by
    intro hc
    rw [hc] at hmulti
    simp at hmulti
  obtain ⟨x, hx⟩ := List.exists_mem_of_ne_nil _ hfilne
  have hex : ∃ h ∈ hands, 0 ≤ j ∧ j < (h.length : ℤ) :=
    ⟨x, List.mem_of_mem_filter hx, by simpa using List.of_mem_filter hx⟩
  obtain ⟨h, hh⟩ := Option.isSome_iff_exists.mp
    ((lastHandWith_isSome_iff hands j).mpr hex)
  refine ⟨?_, h, hh, ?_⟩
  · exact List.count_eq_one_of_mem
      (nodup_keysOf_flattenLandmarks (some hands))
      ((mem_keysOf_flattenLandmarks hands j).mpr hex)
  · rw [dictGet_flattenLandmarks, hh]
    rfl

/-- C3: on a frame with exactly one detected hand with `N` landmarks, the
returned map has exactly `N` entries, its keys are exactly the integers
`0 .. N-1`, and — the engine producing normalized landmarks — every stored
coordinate lies in `[0, 1]`. -/
theorem fetch_landmarks_one_hand (h : HandLandmarks) (N : ℕ)
    (hN : h.length = N)
    (hnorm : ∀ l ∈ h, 0 ≤ l.x ∧ l.x ≤ 1 ∧ 0 ≤ l.y ∧ l.y ≤ 1) :
    (flattenLandmarks (some [h])).length = N ∧
    keysOf (flattenLandmarks (some [h])) =
      (List.range N).map (fun n : ℕ => (n : ℤ)) ∧
    ∀ p ∈ flattenLandmarks (some [h]),
      0 ≤ p.2.1 ∧ p.2.1 ≤ 1 ∧ 0 ≤ p.2.2 ∧ p.2.2 ≤ 1 := by
  subst hN
  rw [flattenLandmarks_single]
  refine ⟨length_handEntries h, handEntries_map_fst h, ?_⟩
  intro p hp
  obtain ⟨l, hl, hpl⟩ := mem_handEntries hp
  rw [hpl]
  exact hnorm l hl

/-- C5: with a deterministic engine — `process` a pure function of the frame
that leaves the engine state unchanged — a detector constructed with
`maxNumHands = 2` and both confidence thresholds `0.5` returns equal
mappings (and the unchanged detector) from two successive `fetch_landmarks`
calls on the same frame: the wrapper adds no state of its own. -/
theorem fetch_landmarks_deterministic
    (ctor : ℤ → ℚ → ℚ → Except ε (HandsEngine σ ε))
    (d : LandmarkDetector σ ε) (f : Frame)
    (pf : Frame → Option (List HandLandmarks))
    (hinit : LandmarkDetector.init ctor 2 (1/2) (1/2) = .ok d)
    (hpure : ∀ s g, d.hand_processor.step s g = .ok (s, pf g)) :
    d.fetch_landmarks f = .ok (d, flattenLandmarks (pf f)) ∧
    (∀ d' m, d.fetch_landmarks f = .ok (d', m) →
      d'.fetch_landmarks f = .ok (d', m)) := by
  have h1 : d.fetch_landmarks f = .ok (d, flattenLandmarks (pf f)) := by
    unfold LandmarkDetector.fetch_landmarks
    rw [hpure]
  refine ⟨h1, ?_⟩
  intro d' m hdm
  rw [h1] at hdm
  obtain ⟨rfl, rfl⟩ : d = d' ∧ flattenLandmarks (pf f) = m := by
    cases hdm
    exact ⟨rfl, rfl⟩
  exact h1

/-- C7: the wrapper performs no validation of its own: the constructor's
behaviour depends only on the engine constructor's verdict at exactly the
given arguments, success and configuration errors pass through unchanged,
and an engine failure during `fetch_landmarks` (or
`fetch_landmark_position`) propagates unchanged with no retry, catch, or
translation. -/
theorem init_delegates_errors (σ ε : Type) :
    (∀ (ctor₁ ctor₂ : ℤ → ℚ → ℚ → Except ε (HandsEngine σ ε)) (a : ℤ)
        (b c : ℚ), ctor₁ a b c = ctor₂ a b c →
      LandmarkDetector.init ctor₁ a b c = LandmarkDetector.init ctor₂ a b c) ∧
    (∀ (ctor : ℤ → ℚ → ℚ → Except ε (HandsEngine σ ε)) (a : ℤ) (b c : ℚ)
        (e : HandsEngine σ ε), ctor a b c = .ok e →
      LandmarkDetector.init ctor a b c = .ok ⟨e⟩) ∧
    (∀ (ctor : ℤ → ℚ → ℚ → Except ε (HandsEngine σ ε)) (a : ℤ) (b c : ℚ)
        (err : ε), ctor a b c = .error err →
      LandmarkDetector.init ctor a b c = .error err) ∧
    (∀ (d : LandmarkDetector σ ε) (f : Frame) (err : ε),
      d.hand_processor.step d.hand_processor.state f = .error err →
      d.fetch_landmarks f = .error err ∧
      ∀ id, d.fetch_landmark_position f id = .error err) := by
  refine ⟨?_, ?_, ?_, ?_⟩
  · intro ctor₁ ctor₂ a b c hab
    rw [LandmarkDetector.init, LandmarkDetector.init, hab]
  · intro ctor a b c e he
    rw [LandmarkDetector.init, he]
    rfl
  · intro ctor a b c err he
    rw [LandmarkDetector.init, he]
    rfl
  · intro d f err hstep
    have hfl : d.fetch_landmarks f = .error err := by
      unfold LandmarkDetector.fetch_landmarks
      rw [hstep]
    refine ⟨hfl, fun id => ?_⟩
    unfold LandmarkDetector.fetch_landmark_position
    rw [hfl]

/-- C8: `fetch_landmarks` and `fetch_landmark_position` mutate no state of
the wrapper other than the engine's own internal state (the engine itself —
its `step` behaviour — is unchanged), and the frame is only read: the result
depends on the frame only through the single engine call. -/
theorem fetch_no_wrapper_mutation (d : LandmarkDetector σ ε) (f : Frame)
    (id : ℤ) :
    (∀ d' m, d.fetch_landmarks f = .ok (d', m) →
      d'.hand_processor.step = d.hand_processor.step ∧
      d' = ⟨⟨d'.hand_processor.state, d.hand_processor.step⟩⟩) ∧
    (∀ d' r, d.fetch_landmark_position f id = .ok (d', r) →
      d'.hand_processor.step = d.hand_processor.step) ∧
    (∀ g : Frame, d.hand_processor.step d.hand_processor.state f =
        d.hand_processor.step d.hand_processor.state g →
      d.fetch_landmarks f = d.fetch_landmarks g) := by
  have hfetch : ∀ d' m, d.fetch_landmarks f = .ok (d', m) →
      d'.hand_processor.step = d.hand_processor.step := by
    intro d' m hdm
    unfold LandmarkDetector.fetch_landmarks at hdm
    cases hstep : d.hand_processor.step d.hand_processor.state f with
    | error e => rw [hstep] at hdm; cases hdm
    | ok p =>
      rw [hstep] at hdm
      cases hdm
      rfl
  refine ⟨fun d' m hdm => ⟨hfetch d' m hdm, ?_⟩, ?_, ?_⟩
  · rw [← hfetch d' m hdm]
  · intro d' r hdr
    unfold LandmarkDetector.fetch_landmark_position at hdr
    cases hf : d.fetch_landmarks f with
    | error e => rw [hf] at hdr; cases hdr
    | ok p =>
      rw [hf] at hdr
      cases hdr
      exact hfetch p.1 p.2 (by rw [hf])
  · intro g hfg
    unfold LandmarkDetector.fetch_landmarks
    rw [hfg]

/-- C9: with one or more detected hands, the key set of the returned map is
exactly the contiguous range `{0, ..., M-1}` where `M` is the maximum
landmark-list length over the hands, and the map's size is `M` (not the sum
over hands). -/
theorem fetch_landmarks_keyset_contiguous (hands : List HandLandmarks)
    (hne : hands ≠ []) :
    (∀ j : ℤ, j ∈ keysOf (flattenLandmarks (some hands)) ↔
      0 ≤ j ∧ j < (maxHandLen hands : ℤ)) ∧
    (flattenLandmarks (some hands)).length = maxHandLen hands := by
  refine ⟨?_, length_flattenLandmarks hands⟩
  intro j
  rw [mem_keysOf_flattenLandmarks]
  constructor
  · rintro ⟨h, hh, h0, hlt⟩
    have := (lt_maxHandLen_iff hands j.toNat).mpr ⟨h, hh, by omega⟩
    omega
  · rintro ⟨h0, hM⟩
    obtain ⟨h, hh, hlt⟩ := (lt_maxHandLen_iff hands j.toNat).mp (by omega)
    exact ⟨h, hh, h0, by omega⟩

/-! ### Concrete witnesses -/

/-- Witness for C1 at `handsEx` and landmark ID 0: the ID appears in both
hands, is present exactly once, and carries the second hand's pair. -/
theorem fetch_landmarks_collision_witness :
    (keysOf (flattenLandmarks (some handsEx))).count 0 = 1 ∧
    ∃ h, lastHandWith handsEx 0 = some h ∧
      dictGet (flattenLandmarks (some handsEx)) 0 =
        (landmarkAt h 0).map (fun l => (l.x, l.y)) :=
  fetch_landmarks_collision handsEx 0 (by decide) (by decide)

/-- Witness for C2 at `detectorEx` and `frameEx`: ID 0 is present (value
from the last hand), ID 5 is absent and yields `none`, not an error. -/
theorem fetch_landmark_position_eq_get_witness :
    detectorEx.fetch_landmark_position frameEx 0 =
      .ok (detectorEx, some (1, 0)) ∧
    detectorEx.fetch_landmark_position frameEx 5 = .ok (detectorEx, none) := by
  have h0 := fetch_landmark_position_eq_get detectorEx frameEx 0
  have h5 := fetch_landmark_position_eq_get detectorEx frameEx 5
  constructor
  · rw [h0.1]; rfl
  · rw [h5.1]; rfl

/-- Witness for C3 at the two-landmark hand `handW`. -/
theorem fetch_landmarks_one_hand_witness :
    (flattenLandmarks (some [handW])).length = 2 ∧
    keysOf (flattenLandmarks (some [handW])) =
      (List.range 2).map (fun n : ℕ => (n : ℤ)) := by
  have h := fetch_landmarks_one_hand handW 2 rfl (by decide)
  exact ⟨h.1, h.2.1⟩

/-- Witness for C4 at `detectorNone`, whose engine reports no hands. -/
theorem fetch_landmarks_no_hands_witness :
    detectorNone.fetch_landmarks frameEx =
      .ok (⟨⟨(), detectorNone.hand_processor.step⟩⟩, []) :=
  fetch_landmarks_no_hands detectorNone frameEx () none rfl (Or.inl rfl)

/-- Witness for C5 at `detectorEx`, whose engine is a pure function of the
frame. -/
theorem fetch_landmarks_deterministic_witness :
    detectorEx.fetch_landmarks frameEx =
      .ok (detectorEx, flattenLandmarks (some handsEx)) :=
  (fetch_landmarks_deterministic ctorEx detectorEx frameEx
    (fun _ => some handsEx) rfl (fun _ _ => rfl)).1

/-- Witness for C7: a rejecting engine constructor and a raising engine both
surface their errors unchanged. -/
theorem init_delegates_errors_witness :
    LandmarkDetector.init ctorErr 2 (1/2) (1/2) = .error () ∧
    detectorErr.fetch_landmarks frameEx = .error () ∧
    detectorErr.fetch_landmark_position frameEx 0 = .error () := by
  have h := init_delegates_errors Unit Unit
  refine ⟨h.2.2.1 ctorErr 2 (1/2) (1/2) () rfl, ?_, ?_⟩
  · exact (h.2.2.2 detectorErr frameEx () rfl).1
  · exact (h.2.2.2 detectorErr frameEx () rfl).2 0

/-- Witness for C8: the engine of `detectorEx` reads the frame through its
single `process` call only, so two frames with equal engine output give
equal results. -/
theorem fetch_no_wrapper_mutation_witness :
    detectorEx.fetch_landmarks frameEx = detectorEx.fetch_landmarks frameEx2 :=
  (fetch_no_wrapper_mutation detectorEx frameEx 0).2.2 frameEx2 rfl

/-- Witness for C9 at `handsEx`: the key set is `{0, 1}` and the map size is
the maximum hand length 2, not the sum 3. -/
theorem fetch_landmarks_keyset_contiguous_witness :
    ((0 : ℤ) ∈ keysOf (flattenLandmarks (some handsEx)) ↔
      0 ≤ (0 : ℤ) ∧ (0 : ℤ) < (maxHandLen handsEx : ℤ)) ∧
    (flattenLandmarks (some handsEx)).length = maxHandLen handsEx := by
  have h := fetch_landmarks_keyset_contiguous handsEx (by decide)
  exact ⟨h.1 0, h.2⟩
